import Mathlib

/-!
Shallow embedding of `src/research/modelling/tweet_torch.py` (the single
training script of the repository) and proofs about it.

Conventions: tensors of floats become lists of rationals (`List ℚ`), numpy
arrays of ints become `List ℕ`, fallible Python operations (numpy fancy
indexing, `int()` parsing, `torch.cat` with `None`, shape-checked matrix
application, a `raise`) become `Option`/`Except` values.
-/

namespace TweetTorch

/-! ## Label binning

`df["label"] = pd.cut(df["retweets_count"], bins=[0,1,10,100,inf],
include_lowest=True, right=False)` followed by renaming the four interval
categories to `0,1,2,3` (lines 72–73).  With `right=False` the intervals are
left-closed right-open: [0,1), [1,10), [10,100), [100,∞). -/

/-- The label assigned to a (non-negative, integral) retweet count by the
`pd.cut` binning of lines 72–73. -/
def labelOfRetweets (r : ℕ) : ℕ :=
  if r < 1 then 0
  else if r < 10 then 1
  else if r < 100 then 2
  else 3

/-! ## Sample weights

`TweetDataset.compute_sample_weights` (lines 115–119):
```
class_sample_counts = np.unique(labels, return_counts=True)[1]
class_weights = 1. / class_sample_counts
sample_weights = class_weights[labels]
```
`np.unique(..., return_counts=True)` returns the *sorted distinct* values and
their multiplicities; `class_weights[labels]` is numpy fancy indexing, which
raises `IndexError` when some label is out of range for `class_weights`. -/

/-- The sorted distinct values of `labels` (first component of `np.unique`). -/
def sortedUnique (labels : List ℕ) : List ℕ :=
  labels.toFinset.sort (· ≤ ·)

/-- The multiplicity of each sorted distinct value
(`np.unique(labels, return_counts=True)[1]`). -/
def uniqueCounts (labels : List ℕ) : List ℕ :=
  (sortedUnique labels).map (fun v => labels.count v)

/-- Numpy fancy indexing `arr[idxs]`: gather one entry per index, raising
(`none`) as soon as an index is out of range. -/
def fancyIndex (arr : List ℚ) : List ℕ → Option (List ℚ)
  | [] => some []
  | l :: ls =>
    match arr[l]?, fancyIndex arr ls with
    | some v, some vs => some (v :: vs)
    | _, _ => none

/-- `TweetDataset.compute_sample_weights`.  `none` models the `IndexError`
raised by `class_weights[labels]` when a label value is out of range for the
per-class weight array. -/
def computeSampleWeights (labels : List ℕ) : Option (List ℚ) :=
  let classWeights : List ℚ := (uniqueCounts labels).map (fun (c : ℕ) => 1 / (c : ℚ))
  fancyIndex classWeights labels

/-- Per-class weighted mass: sum over examples of weight × indicator(class = c). -/
def classMass (labels : List ℕ) (w : List ℚ) (c : ℕ) : ℚ :=
  (List.zipWith (fun l wi => if l = c then wi else 0) labels w).sum

/-! ## Loss selection

`ViralityClassifier.compute_loss` (lines 192–202) reshapes
`logits.view(-1, n_labels)`, `labels.view(-1)` and then branches purely on
`self.n_labels`: `== 1` → `mse_loss(logits.view(-1), labels.float())`,
`== 2` → `binary_cross_entropy_with_logits(logits, labels)`, otherwise
`cross_entropy(logits, labels)`. -/

/-- Which torch loss function `compute_loss` invokes, together with the exact
tensors it is handed (logits flattened for MSE, reshaped to rows of width
`n_labels` otherwise; labels cast to float only in the MSE branch). -/
inductive LossCall where
  | mse (pred : List ℚ) (target : List ℚ)
  | bceWithLogits (logits : List (List ℚ)) (labels : List ℕ)
  | crossEntropy (logits : List (List ℚ)) (labels : List ℕ)
  deriving DecidableEq

/-- The loss family of a `LossCall`, forgetting the tensor arguments. -/
def LossCall.family : LossCall → ℕ
  | .mse _ _ => 0
  | .bceWithLogits _ _ => 1
  | .crossEntropy _ _ => 2

/-- Take exactly `n` elements off the front of a list, failing if fewer
remain. -/
def takeRow : ℕ → List ℚ → Option (List ℚ × List ℚ)
  | 0, xs => some ([], xs)
  | _ + 1, [] => none
  | n + 1, x :: xs => (takeRow n xs).map (fun p => (x :: p.1, p.2))

/-- Fuelled worker for `viewRows`; the fuel is the length of the input, which
bounds the number of rows. -/
def viewRowsFuel (n : ℕ) : ℕ → List ℚ → Option (List (List ℚ))
  | _, [] => some []
  | 0, _ :: _ => none
  | fuel + 1, x :: xs => do
    let (row, rest) ← takeRow n (x :: xs)
    let rows ← viewRowsFuel n fuel rest
    pure (row :: rows)

/-- `tensor.view(-1, n)` on a flat tensor: reshape into rows of exactly `n`
entries, a runtime error (`none`) when the length is not a multiple of `n`. -/
def viewRows (n : ℕ) (xs : List ℚ) : Option (List (List ℚ)) :=
  if n = 0 then none else viewRowsFuel n xs.length xs

/-- `ViralityClassifier.compute_loss`: the flattened logits are reshaped into
rows of width `nLabels` (`view(-1, n_labels)`), the labels flattened, and the
loss function chosen by `nLabels` alone (`logits.view(-1)` in the MSE branch
flattens the rows back out; the labels are cast to float there). -/
def computeLoss (nLabels : ℕ) (logits : List ℚ) (labels : List ℕ) :
    Option LossCall := do
  let logits2d ← viewRows nLabels logits
  if nLabels = 1 then pure (.mse logits2d.flatten (labels.map (fun l => (l : ℚ))))
  else if nLabels = 2 then pure (.bceWithLogits logits2d labels)
  else pure (.crossEntropy logits2d labels)

/-! ## Best-checkpoint selection

Lines 263–270: the artifact directory added to the run is
`checkpoint-{best_ckpt}` where
`best_ckpt = np.min([int(fol.split("-")[1]) for fol in os.listdir(out_dir)])`:
the numeric minimum of the step numbers parsed from the checkpoint directory
names, not the checkpoint with the best recorded metric. -/

/-- `fol.split("-")`: split a character sequence at every `-`. -/
def splitOnDash : List Char → List (List Char)
  | [] => [[]]
  | c :: rest =>
    let r := splitOnDash rest
    if c = '-' then [] :: r
    else
      match r with
      | [] => [[c]]
      | g :: gs => (c :: g) :: gs

/-- `int(...)` on the digit strings that checkpoint names carry: `none` models
the `ValueError` on an empty or non-numeric component. -/
def digitsToNat : List Char → Option ℕ
  | cs =>
    if cs ≠ [] ∧ ∀ c ∈ cs, c.isDigit then
      some (cs.foldl (fun a c => 10 * a + (c.toNat - 48)) 0)
    else none

/-- `int(fol.split("-")[1])`: split a directory name on `-`, take component 1,
parse it as an integer (`none` models the `IndexError`/`ValueError`). -/
def parseCkptStep (fol : String) : Option ℕ :=
  ((splitOnDash fol.toList).get? 1).bind digitsToNat

/-- `np.min` on a list of naturals; `none` models the error `np.min` raises on
an empty list. -/
def npMin : List ℕ → Option ℕ
  | [] => none
  | x :: xs => some (xs.foldl min x)

/-- Parse every directory name of the output directory
(the list comprehension of line 268); fails if any name fails to parse. -/
def parseAllSteps : List String → Option (List ℕ)
  | [] => some []
  | fol :: fols =>
    match parseCkptStep fol, parseAllSteps fols with
    | some s, some ss => some (s :: ss)
    | _, _ => none

/-- `best_ckpt` (line 268): parse every directory name in the output directory
and take the numeric minimum of the step numbers. -/
def bestCkpt (fols : List String) : Option ℕ := do
  let steps ← parseAllSteps fols
  npMin steps

/-- The checkpoint subdirectory logged as the best-model artifact
(line 269: `add_dir(f".../checkpoint-{best_ckpt}")`). -/
def loggedBestDir (fols : List String) : Option String :=
  (bestCkpt fols).map (fun b => "checkpoint-" ++ toString b)

/-! ## Evaluation metric

`compute_metric` (lines 209–212):
`{"accuracy": (eval_pred.label_ids == eval_pred.predictions.argmax(-1)).mean()}`.
`np.argmax` over the last axis returns, per row, the index of the first
occurrence of the maximal entry. -/

/-- Tail of `np.argmax`: `bv`/`bi` are the best value and its index so far,
`i` the index of the next element; a later element replaces the best only if
strictly greater, so the first occurrence of the maximum wins. -/
def argmaxGo (bv : ℚ) (bi : ℕ) (i : ℕ) : List ℚ → ℕ
  | [] => bi
  | y :: ys => if bv < y then argmaxGo y i (i + 1) ys else argmaxGo bv bi (i + 1) ys

/-- `np.argmax` on one row (numpy returns 0-based first-max index; on an empty
row numpy raises, the `0` default is never exercised below). -/
def argmaxIdx : List ℚ → ℕ
  | [] => 0
  | x :: xs => argmaxGo x 0 1 xs

/-- `compute_metric`: elementwise compare the true labels with the per-row
argmax of the predictions, and average the resulting 0/1 values. -/
def computeMetric (labelIds : List ℕ) (predictions : List (List ℚ)) : ℚ :=
  (List.zipWith (fun l p => if l = argmaxIdx p then (1 : ℚ) else 0)
      labelIds predictions).sum / (labelIds.length : ℚ)

/-! ## Training arguments

The `TrainingArguments` literal of lines 45–64, restricted to the fields the
claims mention. -/

structure TrainingArgsM where
  num_train_epochs : ℕ
  per_device_train_batch_size : ℕ
  per_device_eval_batch_size : ℕ
  save_total_limit : ℕ
  load_best_model_at_end : Bool
  metric_for_best_model : String
  greater_is_better : Bool
  dataloader_drop_last : Bool
  deriving DecidableEq

/-- The concrete `training_args` value constructed by the script
(`dataloader_drop_last` is left at the HF default `False`). -/
def trainingArgsV : TrainingArgsM :=
  { num_train_epochs := 20
    per_device_train_batch_size := 128
    per_device_eval_batch_size := 128
    save_total_limit := 1
    load_best_model_at_end := true
    metric_for_best_model := "accuracy"
    greater_is_better := true
    dataloader_drop_last := false }

/-! ## Dataset and trainer

`TweetDataset.__init__` stores the labels and computes
`self.sample_weights = self.compute_sample_weights(labels)`.
`CustomTrainer.__init__` (lines 230–231) only forwards its arguments to the
generic `Trainer` constructor; the sole missing-dataset check in the script is
the `raise ValueError` at the top of `get_train_dataloader` (lines 233–235). -/

structure TweetDatasetM where
  labels : List ℕ
  sampleWeights : List ℚ
  deriving DecidableEq

/-- `TweetDataset.__init__` restricted to the label/weight state: fails
exactly when `compute_sample_weights` does. -/
def mkTweetDataset (labels : List ℕ) : Option TweetDatasetM :=
  (computeSampleWeights labels).map (fun w => { labels := labels, sampleWeights := w })

structure CustomTrainerM where
  trainDataset : Option TweetDatasetM
  argsM : TrainingArgsM
  deriving DecidableEq

/-- `CustomTrainer.__init__`: a pure pass-through of its arguments.  The
generic `Trainer` constructor it delegates to accepts an absent training
dataset (the dataset is an optional argument there), so construction succeeds
with `train_dataset=None`; no check happens before `get_train_dataloader`. -/
def mkCustomTrainer (ds : Option TweetDatasetM) (a : TrainingArgsM) :
    Except String CustomTrainerM :=
  .ok { trainDataset := ds, argsM := a }

/-- `torch.utils.data.WeightedRandomSampler(sample_weights, len(sample_weights))`
as configured at line 238: `replacement` is left at its torch default `True`. -/
structure WeightedRandomSamplerM where
  weights : List ℚ
  numSamples : ℕ
  replacement : Bool
  deriving DecidableEq

/-- The train `DataLoader` built at lines 239–247, restricted to the fields
the claims mention. -/
structure DataLoaderM where
  sampler : WeightedRandomSamplerM
  batchSize : ℕ
  dropLast : Bool
  deriving DecidableEq

/-- `CustomTrainer.get_train_dataloader` (lines 233–247): raise on a missing
training dataset, otherwise wrap the dataset's sample weights in a
weighted sampler drawing `len(sample_weights)` indices. -/
def getTrainDataloader (t : CustomTrainerM) : Except String DataLoaderM :=
  match t.trainDataset with
  | none => .error "Trainer: training requires a train_dataset."
  | some ds =>
    .ok { sampler :=
            { weights := ds.sampleWeights
              numSamples := ds.sampleWeights.length
              replacement := true }
          batchSize := t.argsM.per_device_train_batch_size
          dropLast := t.argsM.dataloader_drop_last }

/-! ## Sampler distribution

Modelled from the spec: the implementation of
`torch.utils.data.WeightedRandomSampler` is outside this repository; per the
spec its epoch is a sequence of draws with replacement, `P(index=i) ∝ w_i`,
all draws independent.  `drawP` is the single-draw probability mass and
`epochP n` the mass of a length-`n` index sequence, built by sequential draws
whose distribution does not depend on the earlier draws. -/

/-- Modelled from the spec: probability that one weighted draw returns
index `i`, namely `w_i / Σ w`. -/
def drawP (w : List ℚ) (i : ℕ) : ℚ := w.getD i 0 / w.sum

/-- Modelled from the spec: probability mass of an epoch's index sequence
under `n` sequential with-replacement draws. -/
def epochP (w : List ℚ) : ℕ → List ℕ → ℚ
  | 0, [] => 1
  | 0, _ :: _ => 0
  | _ + 1, [] => 0
  | n + 1, i :: rest => drawP w i * epochP w n rest

/-! ## The model head

`ViralityClassifier.__init__` (lines 136–168) and `forward` (lines 170–190).
The pretrained encoder itself is an external artifact; `forward` below takes
the encoder's `[CLS]` output vector (`last_hidden_state[:, 0, :]` for one
example) as its input, and embeds everything the script builds on top of it.
Linear layers are matrices of rationals; applying one to a vector of the wrong
length is the shape error torch raises, modelled as `none`. -/

/-- A `torch.nn.Linear(inF, outF)` with concrete weights: `weight` has `outF`
rows of length `inF`, `bias` has length `outF`. -/
structure LinearM where
  inF : ℕ
  outF : ℕ
  weight : List (List ℚ)
  bias : List ℚ
  deriving DecidableEq

/-- The weight and bias shapes match the declared dimensions. -/
def LinearM.shapeOk (l : LinearM) : Prop :=
  l.weight.length = l.outF ∧ (∀ r ∈ l.weight, r.length = l.inF) ∧
    l.bias.length = l.outF

instance (l : LinearM) : Decidable l.shapeOk := by
  unfold LinearM.shapeOk; infer_instance

/-- Dot product of two equal-length rational vectors. -/
def dotQ (a b : List ℚ) : ℚ := (List.zipWith (fun x y => x * y) a b).sum

/-- Apply a linear layer: `W x + b`, failing on a shape mismatch as torch
does. -/
def LinearM.apply (l : LinearM) (x : List ℚ) : Option (List ℚ) :=
  if x.length = l.inF then
    some (List.zipWith (fun row b => dotQ row x + b) l.weight l.bias)
  else none

/-- `torch.nn.ReLU` on a vector. -/
def reluM (x : List ℚ) : List ℚ := x.map (fun v => max v 0)

/-- `torch.nn.Dropout(p)` in training mode: each position is either zeroed or
kept and rescaled by `1/(1-p)`; the random keep mask is a parameter. -/
def dropoutM (keep : ℕ → Bool) (p : ℚ) (x : List ℚ) : List ℚ :=
  x.mapIdx (fun i v => if keep i then v / (1 - p) else 0)

/-- The state `ViralityClassifier.__init__` leaves behind: `bp1`/`bp2` are the
two linear layers of `self.bert_processor` (`Dropout → Linear(h, h//3) → ReLU
→ Linear(h//3, ·)`), and `classifier` holds the two linear layers of
`self.classifier` (`Linear(2f, f) → ReLU → Linear(f, n_labels)`) when
auxiliary features are configured, `none` otherwise. -/
structure ViralityClassifierM where
  nLabels : ℕ
  bertHdim : ℕ
  dropoutP : ℚ
  bp1 : LinearM
  bp2 : LinearM
  classifier : Option (LinearM × LinearM)
  deriving DecidableEq

/-- The classifier branch of `__init__`: absent exactly when no auxiliary
features are configured, otherwise `Linear(2f, f)` and `Linear(f, n_labels)`. -/
def classifierOk (c : Option (LinearM × LinearM)) (nFeatures nLabels : ℕ) : Prop :=
  match c with
  | none => nFeatures = 0
  | some (c1, c2) =>
    nFeatures ≠ 0 ∧ c1.inF = nFeatures * 2 ∧ c1.outF = nFeatures ∧
      c1.shapeOk ∧ c2.inF = nFeatures ∧ c2.outF = nLabels ∧ c2.shapeOk

instance (c : Option (LinearM × LinearM)) (nFeatures nLabels : ℕ) :
    Decidable (classifierOk c nFeatures nLabels) :=
  match c with
  | none => inferInstanceAs (Decidable (nFeatures = 0))
  | some (_, _) => inferInstanceAs (Decidable (_ ∧ _))

/-- The layer dimensions `__init__` sets up when called with `n_features`
auxiliary features: with `n_features == 0` it rebinds `n_features = n_labels`
and sets `classifier = None`, otherwise it builds the two-layer classifier;
either way `bert_processor` ends in a `Linear(bert_hdim//3, n_features)`. -/
def ViralityClassifierM.wfInit (m : ViralityClassifierM) (nFeatures : ℕ) : Prop :=
  m.bp1.inF = m.bertHdim ∧ m.bp1.outF = m.bertHdim / 3 ∧ m.bp1.shapeOk ∧
  m.bp2.inF = m.bertHdim / 3 ∧
  m.bp2.outF = (if nFeatures = 0 then m.nLabels else nFeatures) ∧
  m.bp2.shapeOk ∧ classifierOk m.classifier nFeatures m.nLabels

instance (m : ViralityClassifierM) (nFeatures : ℕ) :
    Decidable (m.wfInit nFeatures) := by
  unfold ViralityClassifierM.wfInit; infer_instance

/-- `ViralityClassifier.forward` for one example, starting from the encoder's
`[CLS]` vector: `logits = bert_processor(cls)`; when `self.classifier` exists,
`logits = classifier(torch.cat([logits, features]))`.  `torch.cat` with
`features=None` is a runtime error, modelled as `none`. -/
def ViralityClassifierM.forward (m : ViralityClassifierM) (keep : ℕ → Bool)
    (clsVec : List ℚ) (features : Option (List ℚ)) : Option (List ℚ) := do
  let h1 ← m.bp1.apply (dropoutM keep m.dropoutP clsVec)
  let logits ← m.bp2.apply (reluM h1)
  match m.classifier with
  | none => some logits
  | some (c1, c2) =>
    match features with
    | none => none
    | some f => do
      let y ← c1.apply (logits ++ f)
      c2.apply (reluM y)

/-! ## Support lemmas for `viewRows` -/

theorem takeRow_of_le (n : ℕ) (xs : List ℚ) (h : n ≤ xs.length) :
    takeRow n xs = some (xs.take n, xs.drop n) := by
  induction n generalizing xs with
  | zero => simp [takeRow]
  | succ n ih =>
    cases xs with
    | nil => simp at h
    | cons a t => simp [takeRow, ih t (by simpa using h)]

theorem viewRowsFuel_one (t : List ℚ) :
    viewRowsFuel 1 t.length t = some (t.map (fun v => [v])) := by
  induction t with
  | nil => rfl
  | cons a t ih => simp [viewRowsFuel, takeRow, ih]

theorem viewRows_one (xs : List ℚ) :
    viewRows 1 xs = some (xs.map (fun v => [v])) := by
  simpa [viewRows] using viewRowsFuel_one xs

theorem viewRowsFuel_isSome_of_dvd (n : ℕ) (hn : n ≠ 0) :
    ∀ fuel (xs : List ℚ), xs.length ≤ fuel → n ∣ xs.length →
      ∃ rows, viewRowsFuel n fuel xs = some rows := by
  intro fuel
  induction fuel with
  | zero =>
    intro xs hle _
    cases xs with
    | nil => exact ⟨[], rfl⟩
    | cons a t => simp at hle
  | succ fuel ih =>
    intro xs hle hdvd
    cases xs with
    | nil => exact ⟨[], rfl⟩
    | cons a t =>
      have hlen : n ≤ (a :: t).length := Nat.le_of_dvd (by simp) hdvd
      have hrest : ((a :: t).drop n).length ≤ fuel := by
        rw [List.length_drop]
        have : 1 ≤ n := Nat.one_le_iff_ne_zero.mpr hn
        simp only [List.length_cons] at hle ⊢
        omega
      have hdvd2 : n ∣ ((a :: t).drop n).length := by
        rw [List.length_drop]
        exact Nat.dvd_sub' hdvd dvd_rfl
      obtain ⟨rows, hr⟩ := ih ((a :: t).drop n) hrest hdvd2
      refine ⟨(a :: t).take n :: rows, ?_⟩
      simp [viewRowsFuel, takeRow_of_le n (a :: t) hlen, hr]

theorem viewRows_isSome_of_dvd (n : ℕ) (hn : n ≠ 0) (xs : List ℚ)
    (hdvd : n ∣ xs.length) : ∃ rows, viewRows n xs = some rows := by
  simpa [viewRows, hn] using
    viewRowsFuel_isSome_of_dvd n hn xs.length xs le_rfl hdvd

/-- C5: the derived label is the ordinal class of the half-open interval
containing the retweet count among [0,1), [1,10), [10,100), [100,∞). -/
theorem labelOfRetweets_bins (r : ℕ) :
    (labelOfRetweets r = 0 ↔ r < 1) ∧
    (labelOfRetweets r = 1 ↔ 1 ≤ r ∧ r < 10) ∧
    (labelOfRetweets r = 2 ↔ 10 ≤ r ∧ r < 100) ∧
    (labelOfRetweets r = 3 ↔ 100 ≤ r) := by
  unfold labelOfRetweets
  refine ⟨?_, ?_, ?_, ?_⟩ <;> split_ifs with h1 h2 h3 <;> simp <;> omega

/-- C2: `compute_loss` selects the loss purely by the configured label
cardinality: `k = 1` gives mean-squared-error on the flattened scalars with
labels cast to float, `k = 2` binary cross-entropy with logits, `k ≥ 3`
categorical cross-entropy; whenever two inputs both produce a loss call for
the same `k`, the loss family is the same, so the choice never depends on the
data. -/
theorem computeLoss_branch_by_cardinality (k : ℕ) (logits : List ℚ)
    (labels : List ℕ) :
    (k = 1 → computeLoss k logits labels =
      some (.mse logits (labels.map (fun l => (l : ℚ))))) ∧
    (k = 2 → ∀ rows, viewRows 2 logits = some rows →
      computeLoss k logits labels = some (.bceWithLogits rows labels)) ∧
    (3 ≤ k → ∀ rows, viewRows k logits = some rows →
      computeLoss k logits labels = some (.crossEntropy rows labels)) ∧
    (∀ (logits2 : List ℚ) (labels2 : List ℕ) (c c2 : LossCall),
      computeLoss k logits labels = some c →
      computeLoss k logits2 labels2 = some c2 → c2.family = c.family) := by
  refine ⟨?_, ?_, ?_, ?_⟩
  · rintro rfl
    have hf : ∀ t : List ℚ, (t.map (fun v => [v])).flatten = t := by
      intro t
      induction t with
      | nil => rfl
      | cons a t ih => simp [ih]
    rw [computeLoss, viewRows_one]
    simp [hf]
  · rintro rfl rows hrows
    rw [computeLoss, hrows]
    rfl
  · intro hk rows hrows
    have h1 : k ≠ 1 := by omega
    have h2 : k ≠ 2 := by omega
    rw [computeLoss, hrows]
    simp [h1, h2]
  · intro logits2 labels2 c c2 hc hc2
    rw [computeLoss] at hc hc2
    cases hv : viewRows k logits with
    | none => rw [hv] at hc; simp at hc
    | some rows =>
      cases hv2 : viewRows k logits2 with
      | none => rw [hv2] at hc2; simp at hc2
      | some rows2 =>
        rw [hv] at hc; rw [hv2] at hc2
        by_cases h1 : k = 1
        · simp [h1] at hc hc2
          rw [← hc, ← hc2]; rfl
        · by_cases h2 : k = 2
          · simp [h1, h2] at hc hc2
            rw [← hc, ← hc2]; rfl
          · simp [h1, h2] at hc hc2
            rw [← hc, ← hc2]; rfl

/-- Witness for C2 at `k ∈ {1, 2, 4}` on concrete batches. -/
theorem computeLoss_branch_by_cardinality_witness :
    computeLoss 1 [3, 4] [0, 1] = some (.mse [3, 4] [0, 1]) ∧
    computeLoss 2 [1, 2, 3, 4] [1, 0] =
      some (.bceWithLogits [[1, 2], [3, 4]] [1, 0]) ∧
    computeLoss 4 [1, 2, 0, 0, 0, 0, 0, 3] [1, 3] =
      some (.crossEntropy [[1, 2, 0, 0], [0, 0, 0, 3]] [1, 3]) := by
  refine ⟨?_, ?_, ?_⟩
  · have h := (computeLoss_branch_by_cardinality 1 [3, 4] [0, 1]).1 rfl
    rw [h]; norm_num
  · exact (computeLoss_branch_by_cardinality 2 [1, 2, 3, 4] [1, 0]).2.1 rfl
      [[1, 2], [3, 4]] rfl
  · exact (computeLoss_branch_by_cardinality 4 [1, 2, 0, 0, 0, 0, 0, 3]
      [1, 3]).2.2.1 (by norm_num) [[1, 2, 0, 0], [0, 0, 0, 3]] rfl

/-- C8 counterexample: with `train_dataset=None` the trainer is constructed
without error — the `ValueError` only appears once the train dataloader is
requested — so the failure is not surfaced at trainer construction. -/
theorem trainerConstruction_succeeds_without_dataset :
    (mkCustomTrainer none trainingArgsV).isOk = true ∧
    getTrainDataloader { trainDataset := none, argsM := trainingArgsV } =
      .error "Trainer: training requires a train_dataset." :=
  ⟨rfl, rfl⟩

/-- C8 (amended): if the training dataset is missing (`None`), trainer
construction itself succeeds; the failure is fatal and surfaced when the
train dataloader is requested at the start of training, before any batch is
produced. -/
theorem getTrainDataloader_missing_dataset (t : CustomTrainerM)
    (h : t.trainDataset = none) :
    (mkCustomTrainer t.trainDataset t.argsM).isOk = true ∧
    getTrainDataloader t =
      .error "Trainer: training requires a train_dataset." := by
  obtain ⟨ds, args⟩ := t
  cases h
  exact ⟨rfl, rfl⟩

/-- Witness for the amended C8 at a concrete dataset-free trainer. -/
theorem getTrainDataloader_missing_dataset_witness :
    (CustomTrainerM.mk none trainingArgsV).trainDataset = none ∧
    ((mkCustomTrainer (CustomTrainerM.mk none trainingArgsV).trainDataset
        (CustomTrainerM.mk none trainingArgsV).argsM).isOk = true ∧
      getTrainDataloader (CustomTrainerM.mk none trainingArgsV) =
        .error "Trainer: training requires a train_dataset.") :=
  ⟨rfl, getTrainDataloader_missing_dataset (CustomTrainerM.mk none trainingArgsV) rfl⟩

/-! ## Support lemmas for `np.min` -/

theorem foldl_min_le_init (xs : List ℕ) : ∀ a, xs.foldl min a ≤ a := by
  induction xs with
  | nil => simp
  | cons x t ih =>
    intro a
    exact le_trans (ih (min a x)) (min_le_left a x)

theorem foldl_min_le_mem (xs : List ℕ) : ∀ a, ∀ s ∈ xs, xs.foldl min a ≤ s := by
  induction xs with
  | nil => intro a s hs; simp at hs
  | cons x t ih =>
    intro a s hs
    rcases List.mem_cons.mp hs with rfl | hs
    · exact le_trans (foldl_min_le_init t (min a s)) (min_le_right a s)
    · exact ih (min a x) s hs

theorem foldl_min_mem (xs : List ℕ) : ∀ a, xs.foldl min a = a ∨ xs.foldl min a ∈ xs := by
  induction xs with
  | nil => intro a; exact Or.inl rfl
  | cons x t ih =>
    intro a
    simp only [List.foldl_cons]
    rcases ih (min a x) with h | h
    · rcases min_choice a x with hm | hm
      · exact Or.inl (by rw [h, hm])
      · exact Or.inr (by rw [h, hm]; exact List.mem_cons_self x t)
    · exact Or.inr (List.mem_cons_of_mem x h)

/-- C3: the checkpoint logged as the best-model artifact is the subdirectory
whose step number is the numeric minimum among the checkpoint directories in
the output directory. -/
theorem bestCkpt_is_min_step (fols : List String) (steps : List ℕ)
    (hp : parseAllSteps fols = some steps) (hne : steps ≠ []) :
    ∃ b, bestCkpt fols = some b ∧ b ∈ steps ∧ (∀ s ∈ steps, b ≤ s) ∧
      loggedBestDir fols = some ("checkpoint-" ++ toString b) := by
  cases steps with
  | nil => exact absurd rfl hne
  | cons x xs =>
    refine ⟨xs.foldl min x, ?_, ?_, ?_, ?_⟩
    · simp [bestCkpt, hp, npMin]
    · rcases foldl_min_mem xs x with h | h
      · rw [h]; exact List.mem_cons_self x xs
      · exact List.mem_cons_of_mem x h
    · intro s hs
      rcases List.mem_cons.mp hs with rfl | hs
      · exact foldl_min_le_init xs s
      · exact foldl_min_le_mem xs x s hs
    · simp [loggedBestDir, bestCkpt, hp, npMin]

/-- Witness for C3 on a two-checkpoint output directory. -/
theorem bestCkpt_is_min_step_witness :
    parseAllSteps ["checkpoint-84", "checkpoint-42"] = some [84, 42] ∧
    ([84, 42] : List ℕ) ≠ [] ∧
    ∃ b, bestCkpt ["checkpoint-84", "checkpoint-42"] = some b ∧
      b ∈ [84, 42] ∧ (∀ s ∈ [84, 42], b ≤ s) ∧
      loggedBestDir ["checkpoint-84", "checkpoint-42"] =
        some ("checkpoint-" ++ toString b) :=
  ⟨by decide, by decide,
    bestCkpt_is_min_step ["checkpoint-84", "checkpoint-42"] [84, 42]
      (by decide) (by decide)⟩

/-! ## Support lemmas for the sampler distribution -/

theorem epochP_length (w : List ℚ) :
    ∀ (n : ℕ) (idxs : List ℕ), epochP w n idxs ≠ 0 → idxs.length = n := by
  intro n idxs
  induction idxs generalizing n with
  | nil =>
    intro h
    cases n with
    | zero => rfl
    | succ n => simp [epochP] at h
  | cons i rest ih =>
    intro h
    cases n with
    | zero => simp [epochP] at h
    | succ n =>
      simp only [epochP] at h
      have ht : epochP w n rest ≠ 0 := fun hz => h (by rw [hz, mul_zero])
      rw [List.length_cons, ih n ht]

theorem epochP_eq_prod (w : List ℚ) :
    ∀ (idxs : List ℕ) (n : ℕ), idxs.length = n →
      epochP w n idxs = (idxs.map (drawP w)).prod := by
  intro idxs
  induction idxs with
  | nil =>
    rintro n rfl
    simp [epochP]
  | cons i rest ih =>
    rintro n rfl
    simp only [List.length_cons, epochP, List.map_cons, List.prod_cons]
    rw [ih rest.length rfl]

theorem drawP_cross (w : List ℚ) (i j : ℕ) :
    drawP w i * w.getD j 0 = drawP w j * w.getD i 0 := by
  unfold drawP; ring

theorem drawP_mul_sum (w : List ℚ) (i : ℕ) (h : w.sum ≠ 0) :
    drawP w i * w.sum = w.getD i 0 := by
  unfold drawP; field_simp

theorem sum_getD_range (w : List ℚ) :
    ((List.range w.length).map (fun i => w.getD i 0)).sum = w.sum := by
  induction w with
  | nil => simp
  | cons a t ih =>
    rw [List.length_cons, List.range_succ_eq_map]
    simp only [List.map_cons, List.map_map, List.sum_cons, Function.comp_def,
      List.getD_cons_zero, List.getD_cons_succ]
    rw [ih]

theorem sum_map_div (l : List ℚ) (s : ℚ) :
    (l.map (fun x => x / s)).sum = l.sum / s := by
  induction l with
  | nil => simp
  | cons a t ih => simp [ih, add_div]

theorem drawP_normalizes (w : List ℚ) (h : w.sum ≠ 0) :
    ((List.range w.length).map (drawP w)).sum = 1 := by
  have hm : (List.range w.length).map (drawP w) =
      ((List.range w.length).map (fun i => w.getD i 0)).map
        (fun x => x / w.sum) := by
    rw [List.map_map]; rfl
  rw [hm, sum_map_div, sum_getD_range, div_self h]

theorem epochP_replicate_pos (w : List ℚ) (i : ℕ) (h : 0 < drawP w i) :
    ∀ n, 0 < epochP w n (List.replicate n i) := by
  intro n
  induction n with
  | zero => norm_num [epochP]
  | succ n ih =>
    rw [List.replicate_succ]
    simp only [epochP]
    exact mul_pos h ih

/-- C4: the custom trainer's train dataloader wraps the dataset's sample
weights in a with-replacement weighted sampler that draws exactly `N` indices
per epoch (`N` the training-set size); under the modelled draw distribution an
epoch's probability mass factorizes into independent per-draw masses, each
draw picks index `i` with probability proportional to `w_i`, and a sequence
repeating one positive-weight index an entire epoch (so an example appearing
multiple times, all others zero times) has positive probability. -/
theorem getTrainDataloader_weighted_sampler (t : CustomTrainerM)
    (ds : TweetDatasetM) (h : t.trainDataset = some ds)
    (hlen : ds.sampleWeights.length = ds.labels.length) :
    ∃ dl, getTrainDataloader t = .ok dl ∧
      dl.sampler.weights = ds.sampleWeights ∧
      dl.sampler.numSamples = ds.labels.length ∧
      dl.sampler.replacement = true ∧
      (∀ idxs, epochP dl.sampler.weights dl.sampler.numSamples idxs ≠ 0 →
        idxs.length = dl.sampler.numSamples) ∧
      (∀ idxs, idxs.length = dl.sampler.numSamples →
        epochP dl.sampler.weights dl.sampler.numSamples idxs =
          (idxs.map (drawP dl.sampler.weights)).prod) ∧
      (∀ i j, drawP dl.sampler.weights i * dl.sampler.weights.getD j 0 =
        drawP dl.sampler.weights j * dl.sampler.weights.getD i 0) ∧
      (dl.sampler.weights.sum ≠ 0 → ∀ i,
        drawP dl.sampler.weights i * dl.sampler.weights.sum =
          dl.sampler.weights.getD i 0) ∧
      (dl.sampler.weights.sum ≠ 0 →
        ((List.range dl.sampler.weights.length).map
          (drawP dl.sampler.weights)).sum = 1) ∧
      (∀ i, 0 < drawP dl.sampler.weights i →
        0 < epochP dl.sampler.weights dl.sampler.numSamples
          (List.replicate dl.sampler.numSamples i)) := by
  obtain ⟨tds, args⟩ := t
  cases h
  refine ⟨_, rfl, rfl, hlen, rfl, ?_, ?_, ?_, ?_, ?_, ?_⟩
  · exact fun idxs hz => epochP_length ds.sampleWeights _ idxs hz
  · exact fun idxs hl => epochP_eq_prod ds.sampleWeights idxs _ hl
  · exact drawP_cross ds.sampleWeights
  · exact fun hs i => drawP_mul_sum ds.sampleWeights i hs
  · exact fun hs => drawP_normalizes ds.sampleWeights hs
  · exact fun i hp => epochP_replicate_pos ds.sampleWeights i hp _

/-- A three-example training dataset with its inverse-frequency weights. -/
def toyDataset : TweetDatasetM :=
  { labels := [0, 0, 1], sampleWeights := [1/2, 1/2, 1] }

/-- A trainer over `toyDataset` with the script's training arguments. -/
def toyTrainer : CustomTrainerM :=
  { trainDataset := some toyDataset, argsM := trainingArgsV }

/-- Witness for C4 at a concrete three-example trainer. -/
theorem getTrainDataloader_weighted_sampler_witness :
    ∃ dl, getTrainDataloader toyTrainer = .ok dl ∧
      dl.sampler.weights = toyDataset.sampleWeights ∧
      dl.sampler.numSamples = toyDataset.labels.length ∧
      dl.sampler.replacement = true ∧
      (∀ idxs, epochP dl.sampler.weights dl.sampler.numSamples idxs ≠ 0 →
        idxs.length = dl.sampler.numSamples) ∧
      (∀ idxs, idxs.length = dl.sampler.numSamples →
        epochP dl.sampler.weights dl.sampler.numSamples idxs =
          (idxs.map (drawP dl.sampler.weights)).prod) ∧
      (∀ i j, drawP dl.sampler.weights i * dl.sampler.weights.getD j 0 =
        drawP dl.sampler.weights j * dl.sampler.weights.getD i 0) ∧
      (dl.sampler.weights.sum ≠ 0 → ∀ i,
        drawP dl.sampler.weights i * dl.sampler.weights.sum =
          dl.sampler.weights.getD i 0) ∧
      (dl.sampler.weights.sum ≠ 0 →
        ((List.range dl.sampler.weights.length).map
          (drawP dl.sampler.weights)).sum = 1) ∧
      (∀ i, 0 < drawP dl.sampler.weights i →
        0 < epochP dl.sampler.weights dl.sampler.numSamples
          (List.replicate dl.sampler.numSamples i)) :=
  getTrainDataloader_weighted_sampler toyTrainer toyDataset rfl rfl

/-! ## Support lemmas for `compute_sample_weights` -/

theorem fancyIndex_eq_map (arr : List ℚ) (g : ℕ → ℚ) :
    ∀ ls : List ℕ, (∀ l ∈ ls, arr[l]? = some (g l)) →
      fancyIndex arr ls = some (ls.map g) := by
  intro ls
  induction ls with
  | nil => intro _; rfl
  | cons l t ih =>
    intro h
    simp only [fancyIndex]
    rw [h l (List.mem_cons_self l t),
      ih (fun x hx => h x (List.mem_cons_of_mem l hx))]
    rfl

theorem fancyIndex_isSome_iff (arr : List ℚ) :
    ∀ ls : List ℕ, (fancyIndex arr ls).isSome = true ↔ ∀ l ∈ ls, l < arr.length := by
  intro ls
  induction ls with
  | nil => simp [fancyIndex]
  | cons l t ih =>
    cases hg : arr[l]? with
    | none =>
      have hlen : ¬ l < arr.length := by
        intro hc
        rw [List.getElem?_eq_getElem hc] at hg
        cases hg
      constructor
      · intro h
        exfalso
        simp [fancyIndex, hg] at h
      · intro h
        exact absurd (h l (List.mem_cons_self l t)) hlen
    | some v =>
      have hlen : l < arr.length := by
        by_contra hc
        rw [List.getElem?_eq_none_iff.mpr (Nat.le_of_not_lt hc)] at hg
        cases hg
      cases hft : fancyIndex arr t with
      | none =>
        have ht : ¬ ∀ x ∈ t, x < arr.length := by
          intro hall
          have hs := ih.mpr hall
          rw [hft] at hs
          cases hs
        constructor
        · intro h
          exfalso
          simp [fancyIndex, hg, hft] at h
        · intro h
          exact absurd (fun x hx => h x (List.mem_cons_of_mem l hx)) ht
      | some vs =>
        constructor
        · intro _ x hx
          rcases List.mem_cons.mp hx with rfl | hx
          · exact hlen
          · exact (ih.mp (by rw [hft]; rfl)) x hx
        · intro _
          simp [fancyIndex, hg, hft]

theorem toFinset_eq_range_iff (labels : List ℕ) :
    labels.toFinset = Finset.range labels.toFinset.card ↔
      ∀ l ∈ labels, l < labels.toFinset.card := by
  constructor
  · intro h l hl
    have hm : l ∈ labels.toFinset := List.mem_toFinset.mpr hl
    rw [h] at hm
    exact Finset.mem_range.mp hm
  · intro h
    apply Finset.eq_of_subset_of_card_le
    · intro x hx
      exact Finset.mem_range.mpr (h x (List.mem_toFinset.mp hx))
    · exact le_of_eq (Finset.card_range _)

theorem sortedUnique_of_contig (labels : List ℕ)
    (h : ∀ l ∈ labels, l < labels.toFinset.card) :
    sortedUnique labels = List.range labels.toFinset.card := by
  rw [sortedUnique]
  conv_lhs => rw [(toFinset_eq_range_iff labels).mpr h]
  exact Finset.sort_range _

theorem classWeights_length (labels : List ℕ) :
    ((uniqueCounts labels).map (fun (c : ℕ) => 1 / (c : ℚ))).length =
      labels.toFinset.card := by
  rw [List.length_map, uniqueCounts, List.length_map, sortedUnique,
    Finset.length_sort]

theorem classWeights_get (labels : List ℕ)
    (h : ∀ l ∈ labels, l < labels.toFinset.card) :
    ∀ l ∈ labels,
      ((uniqueCounts labels).map (fun (c : ℕ) => 1 / (c : ℚ)))[l]? =
        some (1 / (labels.count l : ℚ)) := by
  intro l hl
  rw [uniqueCounts, sortedUnique_of_contig labels h, List.map_map,
    List.getElem?_map, List.getElem?_range (h l hl)]
  rfl

/-- The weights `compute_sample_weights` returns when every label is below
the number of distinct classes. -/
theorem computeSampleWeights_eq_map_of_contig (labels : List ℕ)
    (hcontig : ∀ l ∈ labels, l < labels.toFinset.card) :
    computeSampleWeights labels =
      some (labels.map (fun l => 1 / (labels.count l : ℚ))) :=
  fancyIndex_eq_map _ _ labels (classWeights_get labels hcontig)

theorem classMass_map (labels : List ℕ) (g : ℕ → ℚ) (c : ℕ) :
    classMass labels (labels.map g) c = (labels.count c : ℚ) * g c := by
  induction labels with
  | nil => simp [classMass]
  | cons a t ih =>
    simp only [classMass, List.map_cons, List.zipWith_cons_cons,
      List.sum_cons] at ih ⊢
    rw [ih]
    by_cases hac : a = c
    · subst hac
      rw [if_pos rfl, List.count_cons_self]
      push_cast
      ring
    · rw [if_neg hac, List.count_cons_of_ne (fun hc => hac hc.symm)]
      ring

/-- C1: when the distinct labels are exactly `{0, …, k-1}`,
`compute_sample_weights` assigns every example the reciprocal of its class's
count, and the summed weight mass of every occurring class equals 1. -/
theorem computeSampleWeights_equalizes (labels : List ℕ)
    (hcontig : ∀ l ∈ labels, l < labels.toFinset.card) :
    ∃ w, computeSampleWeights labels = some w ∧
      w = labels.map (fun l => 1 / (labels.count l : ℚ)) ∧
      ∀ c ∈ labels.toFinset, classMass labels w c = 1 := by
  refine ⟨_, computeSampleWeights_eq_map_of_contig labels hcontig, rfl, ?_⟩
  intro c hc
  rw [classMass_map]
  have hpos : 0 < labels.count c := List.count_pos_iff.mpr (List.mem_toFinset.mp hc)
  have hne : (labels.count c : ℚ) ≠ 0 := by
    exact_mod_cast Nat.pos_iff_ne_zero.mp hpos
  rw [mul_one_div, div_self hne]

/-- Witness for C1: the toy dataset with label counts `{0:4, 1:2, 2:1, 3:1}`
gets weights `0.25, 0.5, 1.0, 1.0` by class, each class carrying unit mass. -/
theorem computeSampleWeights_equalizes_witness :
    (∀ l ∈ [0, 0, 0, 0, 1, 1, 2, 3],
      l < ([0, 0, 0, 0, 1, 1, 2, 3] : List ℕ).toFinset.card) ∧
    ∃ w, computeSampleWeights [0, 0, 0, 0, 1, 1, 2, 3] = some w ∧
      w = [1/4, 1/4, 1/4, 1/4, 1/2, 1/2, 1, 1] ∧
      ∀ c ∈ ([0, 0, 0, 0, 1, 1, 2, 3] : List ℕ).toFinset,
        classMass [0, 0, 0, 0, 1, 1, 2, 3] w c = 1 := by
  refine ⟨by decide, ?_⟩
  obtain ⟨w, hw, hmap, hmass⟩ :=
    computeSampleWeights_equalizes [0, 0, 0, 0, 1, 1, 2, 3] (by decide)
  refine ⟨w, hw, ?_, hmass⟩
  rw [hmap]
  norm_num [List.count_cons]

/-- C10: `compute_sample_weights` succeeds exactly when the distinct label
values are `{0, …, k-1}` for `k` distinct classes — in which case it returns
the inverse-class-frequency weights — and on the non-contiguous label list
`[0, 2]` the indexing is out of range (an `IndexError`). -/
theorem computeSampleWeights_requires_contiguous (labels : List ℕ) :
    ((computeSampleWeights labels).isSome = true ↔
      labels.toFinset = Finset.range labels.toFinset.card) ∧
    (∀ w, computeSampleWeights labels = some w →
      w = labels.map (fun l => 1 / (labels.count l : ℚ))) ∧
    computeSampleWeights [0, 2] = none := by
  have hiff : (computeSampleWeights labels).isSome = true ↔
      ∀ l ∈ labels, l < labels.toFinset.card := by
    show (fancyIndex _ labels).isSome = true ↔ _
    rw [fancyIndex_isSome_iff, classWeights_length]
  refine ⟨hiff.trans (toFinset_eq_range_iff labels).symm, ?_, ?_⟩
  · intro w hw
    have hcontig : ∀ l ∈ labels, l < labels.toFinset.card :=
      hiff.mp (by rw [hw]; rfl)
    have heq := computeSampleWeights_eq_map_of_contig labels hcontig
    rw [hw] at heq
    exact Option.some_injective _ heq
  · have h02 : ¬ (fancyIndex
        ((uniqueCounts [0, 2]).map (fun (c : ℕ) => 1 / (c : ℚ))) [0, 2]).isSome = true := by
      rw [fancyIndex_isSome_iff, classWeights_length]
      intro hall
      have h2 := hall 2 (by simp)
      have hcard : ([0, 2] : List ℕ).toFinset.card = 2 := by decide
      omega
    cases ho : computeSampleWeights [0, 2] with
    | none => rfl
    | some w =>
      exfalso
      apply h02
      show (computeSampleWeights [0, 2]).isSome = true
      rw [ho]
      rfl

/-- Witness for C10: the non-contiguous label list `[0, 2]` fails, and its
distinct labels are indeed not `{0, …, k-1}`. -/
theorem computeSampleWeights_requires_contiguous_witness :
    computeSampleWeights [0, 2] = none ∧
    ¬ ([0, 2] : List ℕ).toFinset =
        Finset.range ([0, 2] : List ℕ).toFinset.card :=
  ⟨(computeSampleWeights_requires_contiguous [0, 2]).2.2, by
    intro h
    have h2 : (2 : ℕ) ∈ ([0, 2] : List ℕ).toFinset := by decide
    rw [h] at h2
    have hcard : ([0, 2] : List ℕ).toFinset.card = 2 := by decide
    rw [hcard] at h2
    exact absurd (Finset.mem_range.mp h2) (by norm_num)⟩

/-! ## Support lemmas for `np.argmax` and the metric -/

theorem argmaxGo_spec (ys : List ℚ) :
    ∀ (bv : ℚ) (bi i : ℕ),
      (argmaxGo bv bi i ys = bi ∧ ∀ y ∈ ys, y ≤ bv) ∨
      (∃ k, k < ys.length ∧ argmaxGo bv bi i ys = i + k ∧
        bv < ys.getD k 0 ∧
        (∀ m, m < ys.length → ys.getD m 0 ≤ ys.getD k 0) ∧
        (∀ m, m < k → ys.getD m 0 < ys.getD k 0)) := by
  induction ys with
  | nil =>
    intro bv bi i
    exact Or.inl ⟨rfl, by simp⟩
  | cons y t ih =>
    intro bv bi i
    by_cases hy : bv < y
    · have step : argmaxGo bv bi i (y :: t) = argmaxGo y i (i + 1) t := by
        simp [argmaxGo, hy]
      rcases ih y i (i + 1) with ⟨heq, hall⟩ | ⟨k, hk, heq, hbv, hmax, hfirst⟩
      · right
        refine ⟨0, by simp, by rw [step, heq]; omega, by simpa using hy, ?_, ?_⟩
        · intro m hm
          cases m with
          | zero => simp
          | succ m =>
            simp only [List.getD_cons_succ, List.getD_cons_zero]
            have hmem : t.getD m 0 ∈ t := by
              have hmt : m < t.length := by simpa using hm
              rw [List.getD_eq_getElem t 0 hmt]
              exact List.getElem_mem hmt
            exact hall _ hmem
        · intro m hm
          exact absurd hm (Nat.not_lt_zero m)
      · right
        refine ⟨k + 1, by simpa using hk, by rw [step, heq]; omega, ?_, ?_, ?_⟩
        · simp only [List.getD_cons_succ]
          exact lt_trans hy hbv
        · intro m hm
          cases m with
          | zero =>
            simp only [List.getD_cons_zero, List.getD_cons_succ]
            exact le_of_lt hbv
          | succ m =>
            simp only [List.getD_cons_succ]
            exact hmax m (by simpa using hm)
        · intro m hm
          cases m with
          | zero =>
            simp only [List.getD_cons_zero, List.getD_cons_succ]
            exact hbv
          | succ m =>
            simp only [List.getD_cons_succ]
            exact hfirst m (by omega)
    · have step : argmaxGo bv bi i (y :: t) = argmaxGo bv bi (i + 1) t := by
        simp [argmaxGo, hy]
      rcases ih bv bi (i + 1) with ⟨heq, hall⟩ | ⟨k, hk, heq, hbv, hmax, hfirst⟩
      · left
        refine ⟨by rw [step, heq], ?_⟩
        intro z hz
        rcases List.mem_cons.mp hz with rfl | hz
        · exact le_of_not_lt hy
        · exact hall z hz
      · right
        refine ⟨k + 1, by simpa using hk, by rw [step, heq]; omega, ?_, ?_, ?_⟩
        · simp only [List.getD_cons_succ]
          exact hbv
        · intro m hm
          cases m with
          | zero =>
            simp only [List.getD_cons_zero, List.getD_cons_succ]
            exact le_trans (le_of_not_lt hy) (le_of_lt hbv)
          | succ m =>
            simp only [List.getD_cons_succ]
            exact hmax m (by simpa using hm)
        · intro m hm
          cases m with
          | zero =>
            simp only [List.getD_cons_zero, List.getD_cons_succ]
            exact lt_of_le_of_lt (le_of_not_lt hy) hbv
          | succ m =>
            simp only [List.getD_cons_succ]
            exact hfirst m (by omega)

theorem argmaxIdx_spec (xs : List ℚ) (h : xs ≠ []) :
    argmaxIdx xs < xs.length ∧
    (∀ m, m < xs.length → xs.getD m 0 ≤ xs.getD (argmaxIdx xs) 0) ∧
    (∀ m, m < argmaxIdx xs → xs.getD m 0 < xs.getD (argmaxIdx xs) 0) := by
  cases xs with
  | nil => exact absurd rfl h
  | cons x t =>
    have hidx : argmaxIdx (x :: t) = argmaxGo x 0 1 t := rfl
    rcases argmaxGo_spec t x 0 1 with ⟨heq, hall⟩ | ⟨k, hk, heq, hbv, hmax, hfirst⟩
    · rw [hidx, heq]
      refine ⟨by simp, ?_, ?_⟩
      · intro m hm
        cases m with
        | zero => simp
        | succ m =>
          simp only [List.getD_cons_succ, List.getD_cons_zero]
          have hmt : m < t.length := by simpa using hm
          have hmem : t.getD m 0 ∈ t := by
            rw [List.getD_eq_getElem t 0 hmt]
            exact List.getElem_mem hmt
          exact hall _ hmem
      · intro m hm
        exact absurd hm (Nat.not_lt_zero m)
    · rw [hidx, heq]
      have h1k : (x :: t).getD (1 + k) 0 = t.getD k 0 := by
        rw [Nat.add_comm]
        simp [List.getD_cons_succ]
      refine ⟨by simp only [List.length_cons]; omega, ?_, ?_⟩
      · intro m hm
        rw [h1k]
        cases m with
        | zero =>
          simp only [List.getD_cons_zero]
          exact le_of_lt hbv
        | succ m =>
          simp only [List.getD_cons_succ]
          exact hmax m (by simpa using hm)
      · intro m hm
        rw [h1k]
        cases m with
        | zero =>
          simp only [List.getD_cons_zero]
          exact hbv
        | succ m =>
          simp only [List.getD_cons_succ]
          exact hfirst m (by omega)

theorem zipWith_sum_eq_sum_range {α β : Type} (g : α → β → ℚ) (d1 : α) (d2 : β) :
    ∀ (l1 : List α) (l2 : List β), l1.length = l2.length →
      (List.zipWith g l1 l2).sum =
        ∑ i in Finset.range l1.length, g (l1.getD i d1) (l2.getD i d2) := by
  intro l1
  induction l1 with
  | nil => intro l2 _; simp
  | cons a t ih =>
    intro l2 h
    cases l2 with
    | nil => simp at h
    | cons b s =>
      simp only [List.zipWith_cons_cons, List.sum_cons, List.length_cons]
      rw [Finset.sum_range_succ']
      simp only [List.getD_cons_succ, List.getD_cons_zero]
      rw [ih s (by simpa using h)]
      ring

/-- C7: the evaluation metric is top-1 accuracy — the fraction of examples
whose label equals the first maximal index of its logits row (`np.argmax`
returns the first index carrying the row maximum) — and the training
arguments select checkpoints on this metric with greater-is-better
semantics. -/
theorem computeMetric_top1_accuracy (labelIds : List ℕ)
    (predictions : List (List ℚ))
    (hlen : labelIds.length = predictions.length) :
    computeMetric labelIds predictions =
      (((Finset.range labelIds.length).filter
          (fun i => labelIds.getD i 0 = argmaxIdx (predictions.getD i []))).card : ℚ)
        / (labelIds.length : ℚ) ∧
    (∀ row : List ℚ, row ≠ [] →
      argmaxIdx row < row.length ∧
      (∀ m, m < row.length → row.getD m 0 ≤ row.getD (argmaxIdx row) 0) ∧
      (∀ m, m < argmaxIdx row → row.getD m 0 < row.getD (argmaxIdx row) 0)) ∧
    trainingArgsV.metric_for_best_model = "accuracy" ∧
    trainingArgsV.greater_is_better = true ∧
    trainingArgsV.load_best_model_at_end = true := by
  refine ⟨?_, fun row hrow => argmaxIdx_spec row hrow, rfl, rfl, rfl⟩
  rw [computeMetric,
    zipWith_sum_eq_sum_range (fun l p => if l = argmaxIdx p then (1 : ℚ) else 0)
      0 [] labelIds predictions hlen]
  congr 1
  rw [Finset.card_filter]
  push_cast
  apply Finset.sum_congr rfl
  intro i _
  split_ifs <;> simp

/-- Witness for C7 on a two-example batch where exactly one argmax matches. -/
theorem computeMetric_top1_accuracy_witness :
    computeMetric [1, 0] [[1, 2], [3, 4]] =
      (((Finset.range ([1, 0] : List ℕ).length).filter
          (fun i => ([1, 0] : List ℕ).getD i 0 =
            argmaxIdx (([[1, 2], [3, 4]] : List (List ℚ)).getD i []))).card : ℚ)
        / (([1, 0] : List ℕ).length : ℚ) ∧
    (∀ row : List ℚ, row ≠ [] →
      argmaxIdx row < row.length ∧
      (∀ m, m < row.length → row.getD m 0 ≤ row.getD (argmaxIdx row) 0) ∧
      (∀ m, m < argmaxIdx row → row.getD m 0 < row.getD (argmaxIdx row) 0)) ∧
    trainingArgsV.metric_for_best_model = "accuracy" ∧
    trainingArgsV.greater_is_better = true ∧
    trainingArgsV.load_best_model_at_end = true :=
  computeMetric_top1_accuracy [1, 0] [[1, 2], [3, 4]] rfl

/-! ## Support lemmas for the model head -/

theorem linearM_apply_ex (l : LinearM) (x : List ℚ) (hs : l.shapeOk)
    (hx : x.length = l.inF) :
    ∃ y, l.apply x = some y ∧ y.length = l.outF := by
  refine ⟨List.zipWith (fun row b => dotQ row x + b) l.weight l.bias, ?_, ?_⟩
  · rw [LinearM.apply, if_pos hx]
  · rw [List.length_zipWith, hs.1, hs.2.2, min_self]

/-- C6: the logits produced by `forward` always have width `n_labels`:
without auxiliary features the down-projection network outputs `n_labels`
directly, and with `n_features > 0` it outputs `n_features`, which is
concatenated with the `n_features` auxiliary values and passed through the
two-layer classifier ending in `n_labels` outputs. -/
theorem forward_width (m : ViralityClassifierM) (nFeatures : ℕ)
    (hwf : m.wfInit nFeatures) (keep : ℕ → Bool) (clsVec : List ℚ)
    (hcls : clsVec.length = m.bertHdim) (features : Option (List ℚ))
    (hfeat : nFeatures ≠ 0 → ∃ f, features = some f ∧ f.length = nFeatures) :
    ∃ logits, m.forward keep clsVec features = some logits ∧
      logits.length = m.nLabels := by
  obtain ⟨h1i, h1o, h1s, h2i, h2o, h2s, hcok⟩ := hwf
  have hd : (dropoutM keep m.dropoutP clsVec).length = m.bp1.inF := by
    rw [dropoutM, List.length_mapIdx, hcls, h1i]
  obtain ⟨y1, e1, l1⟩ := linearM_apply_ex m.bp1 _ h1s hd
  have hr1 : (reluM y1).length = m.bp2.inF := by
    rw [reluM, List.length_map, l1, h1o, h2i]
  obtain ⟨y2, e2, l2⟩ := linearM_apply_ex m.bp2 _ h2s hr1
  cases hc : m.classifier with
  | none =>
    rw [hc] at hcok
    simp only [classifierOk] at hcok
    refine ⟨y2, ?_, ?_⟩
    · simp [ViralityClassifierM.forward, e1, e2, hc]
    · rw [l2, h2o, if_pos hcok]
  | some c1c2 =>
    obtain ⟨c1, c2⟩ := c1c2
    rw [hc] at hcok
    simp only [classifierOk] at hcok
    obtain ⟨hnf, hc1i, hc1o, hc1s, hc2i, hc2o, hc2s⟩ := hcok
    obtain ⟨f, hf, hflen⟩ := hfeat hnf
    have hcat : (y2 ++ f).length = c1.inF := by
      rw [List.length_append, l2, h2o, if_neg hnf, hflen, hc1i]
      omega
    obtain ⟨y3, e3, l3⟩ := linearM_apply_ex c1 _ hc1s hcat
    have hr3 : (reluM y3).length = c2.inF := by
      rw [reluM, List.length_map, l3, hc1o, hc2i]
    obtain ⟨y4, e4, l4⟩ := linearM_apply_ex c2 _ hc2s hr3
    refine ⟨y4, ?_, ?_⟩
    · simp [ViralityClassifierM.forward, e1, e2, hc, hf, e3, e4]
    · rw [l4, hc2o]

/-- A concrete model configured with two auxiliary features and four labels. -/
def toyModel : ViralityClassifierM :=
  { nLabels := 4
    bertHdim := 3
    dropoutP := 1/5
    bp1 := { inF := 3, outF := 1, weight := [[1, 0, 0]], bias := [0] }
    bp2 := { inF := 1, outF := 2, weight := [[1], [2]], bias := [0, 0] }
    classifier := some (
      { inF := 4, outF := 2, weight := [[1, 0, 0, 0], [0, 1, 0, 0]],
        bias := [0, 0] },
      { inF := 2, outF := 4, weight := [[1, 0], [0, 1], [1, 1], [0, 0]],
        bias := [0, 0, 0, 0] }) }

/-- Witness for C6 at `toyModel` with a supplied two-feature vector. -/
theorem forward_width_witness :
    ∃ logits, toyModel.forward (fun _ => true) [1, 2, 3] (some [5, 6]) =
        some logits ∧ logits.length = toyModel.nLabels :=
  forward_width toyModel 2 (by decide) (fun _ => true) [1, 2, 3] (by decide)
    (some [5, 6]) (fun _ => ⟨[5, 6], rfl, rfl⟩)

/-- C9: with auxiliary features configured (`n_features > 0`), calling
`forward` with the default `features=None` always fails: the concatenation
with `None` is undefined, so a supplied features tensor is a precondition of
`forward`. -/
theorem forward_undefined_without_features (m : ViralityClassifierM)
    (nFeatures : ℕ) (hwf : m.wfInit nFeatures) (hnf : nFeatures ≠ 0)
    (keep : ℕ → Bool) (clsVec : List ℚ) :
    m.forward keep clsVec none = none := by
  obtain ⟨_, _, _, _, _, _, hcok⟩ := hwf
  cases hc : m.classifier with
  | none =>
    rw [hc] at hcok
    simp only [classifierOk] at hcok
    exact absurd hcok hnf
  | some c1c2 =>
    obtain ⟨c1, c2⟩ := c1c2
    cases e1 : m.bp1.apply (dropoutM keep m.dropoutP clsVec) with
    | none => simp [ViralityClassifierM.forward, e1]
    | some h1 =>
      cases e2 : m.bp2.apply (reluM h1) with
      | none => simp [ViralityClassifierM.forward, e1, e2]
      | some logits => simp [ViralityClassifierM.forward, e1, e2, hc]

/-- Witness for C9 at `toyModel` with `features=None`. -/
theorem forward_undefined_without_features_witness :
    toyModel.forward (fun _ => true) [1, 2, 3] none = none :=
  forward_undefined_without_features toyModel 2 (by decide) (by decide)
    (fun _ => true) [1, 2, 3]

end TweetTorch
